import Mathlib

/-!
Verification development for the `crdts` repository (src/crdts/src/replicant.rs).

The Rust code is shallowly embedded as executable Lean definitions:

* Ed25519 keys are modelled symbolically: a secret key and its public key
  are the same natural number, `sign_detached` records the signed message
  and the key, and `verify_detached` checks both.  This captures exactly
  the property the engine relies on: a signature verifies against a public
  key and a payload iff it was produced from that payload with the matching
  secret key.
* `bincode::serialize` (the canonical byte encoding of a signed payload) is
  modelled as an injective encoding into `Nat` built with `Nat.pair`.
* Rust `HashMap`s are modelled as association lists with unique keys;
  `insert` replaces an existing binding in place (as `HashMap::insert`
  does) and appends otherwise.  `HashMap::drain().collect()` followed by
  `sort()` is modelled by sorting the association list; since map keys are
  unique, the derived lexicographic order on `(Counter, OperationSigned)`
  pairs used by the Rust `sort` is determined by the `Counter` component,
  so we sort by the structural (derived `Ord`) order on `Counter`.
* The two `panic!` sites of `CRDT::apply` (signature failure and the
  incomparable-counter case) and the `assert!` of `create_operation` are
  modelled by an `Except EnginePanic` result: `.error` is the embedding of
  a Rust panic (the call crashes and produces no replica).
* `SystemTime::now()` is modelled by explicit time arguments, and
  `uuid::Uuid` by a natural number.
-/

/-- Model of `sodiumoxide::crypto::sign::ed25519::Signature`: a detached
signature is the pair of the encoded message that was signed and the secret
key that signed it. -/
structure Signature where
  msg : Nat
  key : Nat
  deriving DecidableEq, Repr

/-- Model of `sign::sign_detached(&encoded_payload, user_secret_key)`. -/
def sign_detached (msg : Nat) (sk : Nat) : Signature := ⟨msg, sk⟩

/-- Model of `sign::verify_detached(&signature, &encoded_payload, user_public_key)`.
With the symbolic key model (public key = secret key), verification succeeds
iff the signature was produced over the same encoded payload with the secret
key matching the given public key. -/
def verify_detached (sig : Signature) (msg : Nat) (pk : Nat) : Bool :=
  sig.msg == msg && sig.key == pk

/-- `Counter` from replicant.rs: `Initial(Id) | Operation(Pun, Signature)`. -/
inductive Counter where
  | initial : Nat → Counter
  | operation : Nat → Signature → Counter
  deriving DecidableEq, Repr

namespace Counter

/-- The manual `PartialOrd` impl of `Counter` (replicant.rs lines 88-113):
`Initial < Operation`; two `Initial`s compare equal iff the ids agree and are
otherwise incomparable; two `Operation`s with equal puns compare equal iff the
signatures agree and are otherwise incomparable; distinct puns compare by pun. -/
def pcompare : Counter → Counter → Option Ordering
  | .initial _, .operation _ _ => some .lt
  | .operation _ _, .initial _ => some .gt
  | .initial i1, .initial i2 => if i1 = i2 then some .eq else none
  | .operation p1 s1, .operation p2 s2 =>
      if p1 = p2 then (if s1 = s2 then some .eq else none)
      else some (compare p1 p2)

/-- The derived `Ord` on `Signature` (struct fields in order). -/
def scmp (s1 s2 : Signature) : Ordering :=
  (compare s1.msg s2.msg).then (compare s1.key s2.key)

/-- The derived `Ord` on `Counter` (used by `Vec::sort` in the drain step):
variant order `Initial < Operation`, then fields lexicographically. -/
def ccmp : Counter → Counter → Ordering
  | .initial i1, .initial i2 => compare i1 i2
  | .initial _, .operation _ _ => .lt
  | .operation _ _, .initial _ => .gt
  | .operation p1 s1, .operation p2 s2 => (compare p1 p2).then (scmp s1 s2)

/-- `Counter::increment` (replicant.rs lines 125-135). -/
def increment : Counter → Signature → Counter
  | .initial _, sig => .operation 0 sig
  | .operation n _, sig => .operation (n + 1) sig

/-- `Counter::is_initial`. -/
def is_initial : Counter → Bool
  | .initial _ => true
  | .operation _ _ => false

/-- Canonical encoding of a `Signature` into `Nat` (bincode model). -/
def Signature.enc (s : Signature) : Nat := Nat.pair s.msg s.key

/-- Canonical encoding of a `Counter` into `Nat` (bincode model). -/
def enc : Counter → Nat
  | .initial i => Nat.pair 0 i
  | .operation p s => Nat.pair 1 (Nat.pair p (Signature.enc s))

end Counter

/-- `OperationData<T>` from replicant.rs: `Initial | Desc(T)`. -/
inductive OperationData (D : Type) where
  | initial : OperationData D
  | desc : D → OperationData D
  deriving DecidableEq, Repr

/-- `OperationData::is_initial`. -/
def OperationData.is_initial : OperationData D → Bool
  | .initial => true
  | .desc _ => false

/-- Canonical encoding of `OperationData` given an encoding of descriptions. -/
def OperationData.enc (encD : D → Nat) : OperationData D → Nat
  | .initial => Nat.pair 0 0
  | .desc d => Nat.pair 1 (encD d)

/-- `OperationCounted<T>`: the signed payload `(counter, time, contents)`. -/
structure OperationCounted (D : Type) where
  counter : Counter
  time : Nat
  contents : OperationData D
  deriving DecidableEq, Repr

/-- Model of `bincode::serialize(self)` for a signed payload. -/
def OperationCounted.enc (encD : D → Nat) (oc : OperationCounted D) : Nat :=
  Nat.pair oc.counter.enc (Nat.pair oc.time (oc.contents.enc encD))

/-- `OperationCounted::sign` (replicant.rs lines 57-61). -/
def OperationCounted.mkSig (oc : OperationCounted D) (encD : D → Nat) (sk : Nat) :
    Signature :=
  sign_detached (oc.enc encD) sk

/-- `OperationCounted::verify_sig` (replicant.rs lines 63-67). -/
def OperationCounted.verify_sig (oc : OperationCounted D) (encD : D → Nat)
    (sig : Signature) (pk : Nat) : Bool :=
  verify_detached sig (oc.enc encD) pk

/-- `OperationSigned<T>`: signature plus signed payload. -/
structure OperationSigned (D : Type) where
  signature : Signature
  payload : OperationCounted D
  deriving DecidableEq, Repr

/-- `Operation<T>`: author public key plus signed data. -/
structure Operation (D : Type) where
  user_pub_key : Nat
  data : OperationSigned D
  deriving DecidableEq, Repr

/-- `Account`: the author's keypair. -/
structure Account where
  user_pub_key : Nat
  user_sec_key : Nat
  deriving DecidableEq, Repr

/-- `create_account`. -/
def create_account (pk sk : Nat) : Account := ⟨pk, sk⟩

/-- `CRDTInfo<T>`: per-instance id and initial value. -/
structure CRDTInfo (V : Type) where
  id : Nat
  initial_value : V
  deriving DecidableEq, Repr

/-- `create_crdt_info`. -/
def create_crdt_info (v : V) (id : Nat) : CRDTInfo V := ⟨id, v⟩

/-- The `Applyable` trait: a CRDT data type is its value type, its
description type, a display name, the fold function
`apply_without_idempotency_check`, and the canonical encoding of
descriptions used when payloads are serialized for signing (the trait bound
`T::Description: Serialize`). -/
structure Applyable where
  Value : Type
  D : Type
  name : String
  apply_without_idempotency_check : Value → D → Nat → Counter → Value
  encD : D → Nat

/-- Association-list lookup (model of `HashMap::get`). -/
def alookup [DecidableEq K] : List (K × V) → K → Option V
  | [], _ => none
  | (k, v) :: rest, key => if k = key then some v else alookup rest key

/-- Association-list insert (model of `HashMap::insert`): replaces the
binding in place when the key is present, appends otherwise. -/
def aupsert [DecidableEq K] : List (K × V) → K → V → List (K × V)
  | [], key, val => [(key, val)]
  | (k, v) :: rest, key, val =>
      if k = key then (key, val) :: rest else (k, v) :: aupsert rest key val

/-- Association-list removal (model of `HashMap::remove`). -/
def aerase [DecidableEq K] : List (K × V) → K → List (K × V)
  | [], _ => []
  | (k, v) :: rest, key => if k = key then rest else (k, v) :: aerase rest key

/-- `CRDT<T>`: the replica state (replicant.rs lines 145-164). -/
structure CRDT (A : Applyable) where
  info : CRDTInfo A.Value
  state_vector : List (Nat × Counter)
  not_yet_applied_operations : List (Nat × List (Counter × OperationSigned A.D))
  recently_created_and_applied_operations : List (Counter × Operation A.D)
  value : A.Value

/-- `create_crdt`. -/
def create_crdt (A : Applyable) (info : CRDTInfo A.Value) : CRDT A :=
  ⟨info, [], [], [], info.initial_value⟩

/-- The panics of the engine, surfaced as values in the embedding:
`badSignature` is the `panic!` at replicant.rs lines 294-299,
`historyRewrite` the `panic!` at lines 277-280 (incomparable counters), and
`assertFail` the `assert!` of `create_operation` (lines 324-329). -/
inductive EnginePanic where
  | badSignature : EnginePanic
  | historyRewrite : EnginePanic
  | assertFail : EnginePanic
  deriving DecidableEq, Repr

/-- The comparator used to order the drained pending operations.  Rust sorts
the `Vec<(Counter, OperationSigned)>` by the derived lexicographic `Ord`;
because the pending map keys its entries by `Counter`, the counters in the
vector are pairwise distinct and that order is decided by the `Counter`
component alone, which is what we compare. -/
def pendR (A : Applyable) (x y : Counter × OperationSigned A.D) : Prop :=
  Counter.ccmp x.1 y.1 ≠ Ordering.gt

instance (A : Applyable) : DecidableRel (pendR A) := fun x y => by
  unfold pendR
  infer_instance

def sortPending (A : Applyable) (l : List (Counter × OperationSigned A.D)) :
    List (Counter × OperationSigned A.D) :=
  List.insertionSort (pendR A) l

/-- The iteration over `not_yet_applied_operations_ordered` in `CRDT::apply`
(replicant.rs lines 248-282), written as a fold carrying the state-vector
counter, the accumulator, and the `operations_cant_do_yet` map. -/
def drainLoop (A : Applyable) (pk : Nat) :
    List (Counter × OperationSigned A.D) → Counter → A.Value →
    List (Counter × OperationSigned A.D) →
    Except EnginePanic (Counter × A.Value × List (Counter × OperationSigned A.D))
  | [], sv, acc, left => .ok (sv, acc, left)
  | (c, o) :: rest, sv, acc, left =>
    match c.pcompare sv with
    | some .lt => drainLoop A pk rest sv acc left
    | some .gt => drainLoop A pk rest sv acc (aupsert left c o)
    | some .eq =>
        let sv2 := sv.increment o.signature
        match o.payload.contents with
        | .initial => drainLoop A pk rest sv2 acc left
        | .desc d =>
            drainLoop A pk rest sv2 (A.apply_without_idempotency_check acc d pk sv2) left
    | none => .error .historyRewrite

/-- `CRDT::apply` (replicant.rs lines 204-300).  The signature is verified;
on failure the code panics (`.error .badSignature` here).  Otherwise the
operation is inserted into the author's pending map, the map is drained in
sorted order through `drainLoop`, the leftover is reinstalled (the author's
entry is removed when the leftover is empty), and the updated state vector
and accumulated value are written back. -/
def CRDT.apply (self : CRDT A) (op : Operation A.D) : Except EnginePanic (CRDT A) :=
  let pk := op.user_pub_key
  if op.data.payload.verify_sig A.encD op.data.signature pk then
    let sv := (alookup self.state_vector pk).getD (Counter.initial self.info.id)
    let pend := (alookup self.not_yet_applied_operations pk).getD []
    let pend := aupsert pend op.data.payload.counter op.data
    match drainLoop A pk (sortPending A pend) sv self.value [] with
    | .error e => .error e
    | .ok (sv2, acc, leftover) =>
        .ok { self with
              state_vector := aupsert self.state_vector pk sv2,
              not_yet_applied_operations :=
                if leftover.isEmpty then aerase self.not_yet_applied_operations pk
                else aupsert self.not_yet_applied_operations pk leftover,
              value := acc }
  else .error .badSignature

/-- The body of `create_operation` after its `assert!` (replicant.rs lines
331-349): build the signed payload, sign it, assemble the operation, and
return it together with the incremented counter. -/
def create_operation_core (A : Applyable) (account : Account)
    (op_data : OperationData A.D) (time : Nat) (counter : Counter) :
    Operation A.D × Counter :=
  let payload : OperationCounted A.D := ⟨counter, time, op_data⟩
  let sig := payload.mkSig A.encD account.user_sec_key
  (⟨account.user_pub_key, ⟨sig, payload⟩⟩, counter.increment sig)

/-- `create_operation` (replicant.rs lines 318-350), including its
`assert!(op_data.is_initial() == counter.is_initial())`. -/
def create_operation (A : Applyable) (account : Account)
    (op_data : OperationData A.D) (time : Nat) (counter : Counter) :
    Except EnginePanic (Operation A.D × Counter) :=
  if op_data.is_initial == counter.is_initial then
    .ok (create_operation_core A account op_data time counter)
  else .error .assertFail

/-- `create_initial_operation` (replicant.rs lines 302-305). -/
def CRDT.create_initial_operation (self : CRDT A) (account : Account) (time : Nat) :
    Operation A.D × Counter :=
  create_operation_core A account .initial time (Counter.initial self.info.id)

/-- `create_operation_from_description` (replicant.rs lines 308-315). -/
def create_operation_from_description (A : Applyable) (account : Account)
    (d : A.D) (time : Nat) (counter : Counter) :
    Except EnginePanic (Operation A.D × Counter) :=
  create_operation A account (.desc d) time counter

/-- `CRDT::apply_desc` (replicant.rs lines 178-201).  The state-vector entry
for the account is created if absent (`entry().or_insert()`); if the current
counter is `Initial`, an initial operation is created, applied and recorded
in the outbox first; then the description operation is created from the
resulting counter, applied, and recorded in the outbox.  The two `time`
arguments model the two `SystemTime::now()` samples. -/
def CRDT.apply_desc (self : CRDT A) (account : Account) (d : A.D)
    (t1 t2 : Nat) : Except EnginePanic (CRDT A) :=
  let pk := account.user_pub_key
  let counter0 := (alookup self.state_vector pk).getD (Counter.initial self.info.id)
  let self := { self with state_vector := aupsert self.state_vector pk counter0 }
  let step : Except EnginePanic (CRDT A × Counter) :=
    if counter0.is_initial then
      let (op0, c1) := self.create_initial_operation account t1
      match self.apply op0 with
      | .error e => .error e
      | .ok s1 =>
          let outbox0 :=
            aupsert s1.recently_created_and_applied_operations
              op0.data.payload.counter op0
          .ok ({ s1 with recently_created_and_applied_operations := outbox0 }, c1)
    else .ok (self, counter0)
  match step with
  | .error e => .error e
  | .ok (s1, c) =>
      match create_operation_from_description A account d t2 c with
      | .error e => .error e
      | .ok (op1, _) =>
          match s1.apply op1 with
          | .error e => .error e
          | .ok s2 =>
              let outbox1 :=
                aupsert s2.recently_created_and_applied_operations
                  op1.data.payload.counter op1
              .ok { s2 with recently_created_and_applied_operations := outbox1 }

/-- `CRDT::flush` (replicant.rs lines 352-360): return the outbox and leave
it empty, touching nothing else. -/
def CRDT.flush (self : CRDT A) :
    List (Counter × Operation A.D) × CRDT A :=
  (self.recently_created_and_applied_operations,
   { self with recently_created_and_applied_operations := [] })

/-- `apply_all s ops`: left fold of `CRDT::apply` over a list of operations
(the spec's `apply_all`); a panic aborts the fold. -/
def apply_all (s : CRDT A) : List (Operation A.D) → Except EnginePanic (CRDT A)
  | [] => .ok s
  | op :: rest =>
    match s.apply op with
    | .ok s' => apply_all s' rest
    | .error e => .error e

/-- `u32::MAX`. -/
def u32max : Nat := 4294967295

/-- The `Nat` reference type (replicant.rs lines 434-437): a `u32` that can
only go up.  We call it `NatCrdt` since `Nat` is taken in Lean. -/
structure NatCrdt where
  value : Nat
  deriving DecidableEq, Repr

/-- The `Applyable` impl for `Nat` (replicant.rs lines 452-467): description
type `u32`, fold is `saturating_add`, author and counter are ignored.  On
`u32`-ranged operands `saturating_add` is `min (v + d) u32max`. -/
@[reducible] def NatA : Applyable :=
  { Value := NatCrdt
    D := Nat
    name := "Nat"
    apply_without_idempotency_check := fun s d _ _ => ⟨min (s.value + d) u32max⟩
    encD := id }

/-- An instrumentation `Applyable` used purely as a test fixture (like the
proptest instances in the source): its value records the counter passed to
each invocation of the fold function, so theorems can observe which counter
the engine hands to `apply_without_idempotency_check`. -/
@[reducible] def ProbeA : Applyable :=
  { Value := List Counter
    D := Nat
    name := "Probe"
    apply_without_idempotency_check := fun v _ _ c => v ++ [c]
    encD := id }

instance [DecidableEq E] [DecidableEq α] : DecidableEq (Except E α)
  | .error e1, .error e2 =>
      if h : e1 = e2 then .isTrue (by rw [h])
      else .isFalse (by intro hh; cases hh; exact h rfl)
  | .error _, .ok _ => .isFalse (by intro h; cases h)
  | .ok _, .error _ => .isFalse (by intro h; cases h)
  | .ok a1, .ok a2 =>
      if h : a1 = a2 then .isTrue (by rw [h])
      else .isFalse (by intro hh; cases hh; exact h rfl)

instance (A : Applyable) [DecidableEq A.Value] [DecidableEq A.D] :
    DecidableEq (CRDT A) := fun s1 s2 =>
  match s1, s2 with
  | ⟨i1, sv1, n1, r1, v1⟩, ⟨i2, sv2, n2, r2, v2⟩ =>
    if h : i1 = i2 ∧ sv1 = sv2 ∧ n1 = n2 ∧ r1 = r2 ∧ v1 = v2 then
      .isTrue (by obtain ⟨a, b, c, d, e⟩ := h; subst a b c d e; rfl)
    else
      .isFalse (by intro hh; cases hh; exact h ⟨rfl, rfl, rfl, rfl, rfl⟩)

/-! ### Association-list lemmas -/

theorem alookup_nil [DecidableEq K] (key : K) :
    alookup ([] : List (K × V)) key = none := rfl

theorem aupsert_of_lookup_none [DecidableEq K] (l : List (K × V)) (key : K) (v : V)
    (h : alookup l key = none) : aupsert l key v = l ++ [(key, v)] := by
  induction l with
  | nil => rfl
  | cons hd tl ih =>
      obtain ⟨k0, v0⟩ := hd
      by_cases hk : k0 = key
      · simp [alookup, hk] at h
      · simp only [aupsert, if_neg hk, List.cons_append, List.cons.injEq, true_and]
        exact ih (by simpa [alookup, hk] using h)

theorem aupsert_of_lookup_some [DecidableEq K] (l : List (K × V)) (key : K) (v : V)
    (h : alookup l key = some v) : aupsert l key v = l := by
  induction l with
  | nil => simp [alookup] at h
  | cons hd tl ih =>
      obtain ⟨k0, v0⟩ := hd
      by_cases hk : k0 = key
      · subst hk
        have h' : v0 = v := by simpa [alookup] using h
        subst h'
        simp [aupsert]
      · simp only [aupsert, if_neg hk, List.cons.injEq, true_and]
        exact ih (by simpa [alookup, hk] using h)

theorem alookup_append_right [DecidableEq K] (l1 l2 : List (K × V)) (key : K)
    (h : alookup l1 key = none) : alookup (l1 ++ l2) key = alookup l2 key := by
  induction l1 with
  | nil => rfl
  | cons hd tl ih =>
      obtain ⟨k0, v0⟩ := hd
      by_cases hk : k0 = key
      · simp [alookup, hk] at h
      · simp only [List.cons_append, alookup, if_neg hk]
        exact ih (by simpa [alookup, hk] using h)

theorem mem_aupsert [DecidableEq K] (l : List (K × V)) (key : K) (v : V) :
    ∀ e ∈ aupsert l key v, e ∈ l ∨ e = (key, v) := by
  induction l with
  | nil => intro e he; simp [aupsert] at he; simp [he]
  | cons hd tl ih =>
      obtain ⟨k0, v0⟩ := hd
      intro e he
      by_cases hk : k0 = key
      · simp only [aupsert, if_pos hk, List.mem_cons] at he
        rcases he with h | h
        · right; exact h
        · left; simp [h]
      · simp only [aupsert, if_neg hk, List.mem_cons] at he
        rcases he with h | h
        · left; simp [h]
        · rcases ih e h with h' | h'
          · left; simp [h']
          · right; exact h'

/-! ### Ordering lemmas for `Counter` -/

theorem Ordering.then_lt (o : Ordering) : Ordering.lt.then o = .lt := rfl

theorem Ordering.then_gt (o : Ordering) : Ordering.gt.then o = .gt := rfl

theorem Ordering.then_eq (o : Ordering) : Ordering.eq.then o = o := rfl

theorem compare_nat_eq_iff (a b : Nat) : compare a b = .eq ↔ a = b := by
  rw [Nat.compare_eq_eq]

theorem compare_nat_lt_iff (a b : Nat) : compare a b = .lt ↔ a < b := by
  rw [Nat.compare_eq_lt]

theorem compare_nat_gt_iff (a b : Nat) : compare a b = .gt ↔ b < a := by
  rw [Nat.compare_eq_gt]

theorem scmp_self (s : Signature) : Counter.scmp s s = .eq := by
  have h1 : compare s.msg s.msg = .eq := (compare_nat_eq_iff _ _).mpr rfl
  have h2 : compare s.key s.key = .eq := (compare_nat_eq_iff _ _).mpr rfl
  rw [Counter.scmp, h1, h2]
  rfl

/-! ### Sorted lists of naturals: ordered insert and helpers -/

/-- Ordered insert of an index into a (strictly) sorted index list. -/
def sIns (j : Nat) : List Nat → List Nat
  | [] => [j]
  | i :: rest => if j ≤ i then j :: i :: rest else i :: sIns j rest

theorem mem_sIns (j a : Nat) (l : List Nat) :
    a ∈ sIns j l ↔ a = j ∨ a ∈ l := by
  induction l with
  | nil => simp [sIns]
  | cons i rest ih =>
      by_cases h : j ≤ i
      · rw [sIns, if_pos h]
        simp only [List.mem_cons]
      · rw [sIns, if_neg h]
        simp only [List.mem_cons, ih]
        tauto

theorem sorted_sIns (j : Nat) (l : List Nat) (hl : l.Sorted (· < ·))
    (hj : j ∉ l) : (sIns j l).Sorted (· < ·) := by
  induction l with
  | nil => simp [sIns]
  | cons i rest ih =>
      rw [List.sorted_cons] at hl
      by_cases h : j ≤ i
      · have hji : j < i := lt_of_le_of_ne h (fun he => hj (by simp [he]))
        have hgoal : (j :: i :: rest).Sorted (· < ·) := by
          rw [List.sorted_cons]
          constructor
          · intro b hb
            rcases List.mem_cons.mp hb with h' | h'
            · omega
            · exact lt_trans hji (hl.1 b h')
          · rw [List.sorted_cons]; exact hl
        simpa [sIns, if_pos h] using hgoal
      · have hrest := ih hl.2 (fun hc => hj (by simp [hc]))
        have hgoal : (i :: sIns j rest).Sorted (· < ·) := by
          rw [List.sorted_cons]
          refine ⟨?_, hrest⟩
          intro b hb
          rcases (mem_sIns j b rest).mp hb with h' | h'
          · omega
          · exact hl.1 b h'
        simpa [sIns, if_neg h] using hgoal

theorem sorted_eq_of_mem (l1 l2 : List Nat) (h1 : l1.Sorted (· < ·))
    (h2 : l2.Sorted (· < ·)) (hmem : ∀ a, a ∈ l1 ↔ a ∈ l2) : l1 = l2 := by
  induction l1 generalizing l2 with
  | nil =>
      cases l2 with
      | nil => rfl
      | cons b tl => exact absurd ((hmem b).mpr (by simp)) (by simp)
  | cons a tl ih =>
      cases l2 with
      | nil => exact absurd ((hmem a).mp (by simp)) (by simp)
      | cons b tl2 =>
          rw [List.sorted_cons] at h1 h2
          have hab : a = b := by
            rcases List.mem_cons.mp ((hmem a).mp (by simp)) with h | h
            · exact h
            · rcases List.mem_cons.mp ((hmem b).mpr (by simp)) with h' | h'
              · exact h'.symm
              · have := h1.1 b h'
                have := h2.1 a h
                omega
          subst hab
          have htl : ∀ x, x ∈ tl ↔ x ∈ tl2 := by
            intro x
            constructor
            · intro hx
              have hxl : a < x := h1.1 x hx
              rcases List.mem_cons.mp ((hmem x).mp (by simp [hx])) with h | h
              · omega
              · exact h
            · intro hx
              have hxl : a < x := h2.1 x hx
              rcases List.mem_cons.mp ((hmem x).mpr (by simp [hx])) with h | h
              · omega
              · exact h
          rw [ih tl2 h1.2 h2.2 htl]

/-! ### The honest single-author operation chain

`ChainCtx` fixes an author (symbolic key `k`), a CRDT instance id, an
initial value, and the description/time of each authored operation.  The
chain built from it is exactly what `create_initial_operation` followed by
repeated `create_operation_from_description` produces (and what `apply_desc`
signs and applies locally): operation 0 carries `OperationData::Initial` and
counter `Counter::Initial cid`, and operation `i+1` carries description
`ds i` and the counter obtained by incrementing the previous one with the
previous operation's signature. -/
structure ChainCtx (A : Applyable) where
  k : Nat
  cid : Nat
  v0 : A.Value
  tm : Nat → Nat
  ds : Nat → A.D

namespace ChainCtx

variable {A : Applyable}

/-- The honest author's account (symbolic keypair `(k, k)`). -/
def acct (C : ChainCtx A) : Account := create_account C.k C.k

/-- Contents of the `i`-th chain operation. -/
def opData (C : ChainCtx A) : Nat → OperationData A.D
  | 0 => .initial
  | q + 1 => .desc (C.ds q)

/-- Counter of the `i`-th chain operation (`chainC 0 = Initial cid`; each
further counter comes from `Counter::increment` inside `create_operation`). -/
def chainC (C : ChainCtx A) : Nat → Counter
  | 0 => .initial C.cid
  | i + 1 => (create_operation_core A C.acct (C.opData i) (C.tm i) (C.chainC i)).2

/-- The `i`-th chain operation itself. -/
def chainOp (C : ChainCtx A) (i : Nat) : Operation A.D :=
  (create_operation_core A C.acct (C.opData i) (C.tm i) (C.chainC i)).1

/-- The pending-map entry corresponding to the `i`-th chain operation. -/
def ent (C : ChainCtx A) (i : Nat) : Counter × OperationSigned A.D :=
  (C.chainC i, (C.chainOp i).data)

/-- The value of the replica after folding the first `p` chain operations,
following the drain loop exactly: operation 0 (`Initial`) folds nothing, and
operation `p` (for `p ≥ 1`) is folded with the post-increment state-vector
counter `chainC (p+1)` as the engine passes it. -/
def valAt (C : ChainCtx A) : Nat → A.Value
  | 0 => C.v0
  | p + 1 =>
    match C.opData p with
    | .initial => C.valAt p
    | .desc d => A.apply_without_idempotency_check (C.valAt p) d C.k (C.chainC (p + 1))

theorem chainOp_pub (C : ChainCtx A) (i : Nat) :
    (C.chainOp i).user_pub_key = C.k := rfl

theorem chainC_succ (C : ChainCtx A) (i : Nat) :
    C.chainC (i + 1) = (C.chainC i).increment ((C.chainOp i).data.signature) := rfl

theorem chainOp_counter (C : ChainCtx A) (i : Nat) :
    (C.chainOp i).data.payload.counter = C.chainC i := rfl

theorem chainOp_contents (C : ChainCtx A) (i : Nat) :
    (C.chainOp i).data.payload.contents = C.opData i := rfl

theorem chainOp_verifies (C : ChainCtx A) (i : Nat) :
    (C.chainOp i).data.payload.verify_sig A.encD
      ((C.chainOp i).data.signature) ((C.chainOp i).user_pub_key) = true := by
  simp [chainOp, create_operation_core, OperationCounted.verify_sig,
    OperationCounted.mkSig, verify_detached, sign_detached, acct, create_account]

/-- Shape of a non-initial chain counter: `chainC (i+1)` is
`Operation i ⟨sig of op i⟩`. -/
theorem chainC_shape (C : ChainCtx A) :
    ∀ i, C.chainC (i + 1) = Counter.operation i ((C.chainOp i).data.signature) := by
  intro i
  induction i with
  | zero => rfl
  | succ q ih =>
      rw [chainC_succ, ih]
      rfl

theorem ccmp_self (c : Counter) : Counter.ccmp c c = .eq := by
  cases c with
  | initial i => simp [Counter.ccmp, compare_nat_eq_iff]
  | operation p s =>
      simp [Counter.ccmp, (compare_nat_eq_iff p p).mpr rfl, scmp_self, Ordering.then_eq]

/-- The structural (`derive Ord`) comparison of two chain counters is the
comparison of their indices. -/
theorem ccmp_chain (C : ChainCtx A) (i j : Nat) :
    Counter.ccmp (C.chainC i) (C.chainC j) = compare i j := by
  match i, j with
  | 0, 0 =>
      simp only [chainC, Counter.ccmp]
      rw [(compare_nat_eq_iff C.cid C.cid).mpr rfl, (compare_nat_eq_iff 0 0).mpr rfl]
  | 0, j + 1 =>
      rw [chainC_shape]
      simp [chainC, Counter.ccmp, (compare_nat_lt_iff 0 (j + 1)).mpr (Nat.succ_pos j)]
  | i + 1, 0 =>
      rw [chainC_shape]
      simp [chainC, Counter.ccmp, (compare_nat_gt_iff (i + 1) 0).mpr (Nat.succ_pos i)]
  | i + 1, j + 1 =>
      rw [chainC_shape, chainC_shape]
      rcases Nat.lt_trichotomy i j with h | h | h
      · rw [Counter.ccmp, (compare_nat_lt_iff i j).mpr h, Ordering.then_lt,
          Eq.symm ((compare_nat_lt_iff (i + 1) (j + 1)).mpr (by omega))]
      · subst h
        rw [Counter.ccmp, (compare_nat_eq_iff i i).mpr rfl, Ordering.then_eq, scmp_self,
          Eq.symm ((compare_nat_eq_iff (i + 1) (i + 1)).mpr rfl)]
      · rw [Counter.ccmp, (compare_nat_gt_iff i j).mpr h, Ordering.then_gt,
          Eq.symm ((compare_nat_gt_iff (i + 1) (j + 1)).mpr (by omega))]

theorem chainC_inj (C : ChainCtx A) {i j : Nat} (h : C.chainC i = C.chainC j) :
    i = j := by
  have hc := ccmp_chain C i j
  rw [h, ccmp_self] at hc
  exact (compare_nat_eq_iff i j).mp hc.symm

/-- The manual `PartialOrd` comparison of two chain counters is (defined and)
the comparison of their indices. -/
theorem pcompare_chain (C : ChainCtx A) (i j : Nat) :
    Counter.pcompare (C.chainC i) (C.chainC j) = some (compare i j) := by
  match i, j with
  | 0, 0 => simp [chainC, Counter.pcompare, (compare_nat_eq_iff 0 0).mpr rfl]
  | 0, j + 1 =>
      rw [chainC_shape]
      simp [chainC, Counter.pcompare, (compare_nat_lt_iff 0 (j + 1)).mpr (Nat.succ_pos j)]
  | i + 1, 0 =>
      rw [chainC_shape]
      simp [chainC, Counter.pcompare, (compare_nat_gt_iff (i + 1) 0).mpr (Nat.succ_pos i)]
  | i + 1, j + 1 =>
      rw [chainC_shape, chainC_shape]
      rcases Nat.lt_trichotomy i j with h | h | h
      · rw [Counter.pcompare, if_neg (by omega),
          (compare_nat_lt_iff i j).mpr h,
          Eq.symm ((compare_nat_lt_iff (i + 1) (j + 1)).mpr (by omega))]
      · subst h
        rw [Counter.pcompare, if_pos rfl, if_pos rfl,
          Eq.symm ((compare_nat_eq_iff (i + 1) (i + 1)).mpr rfl)]
      · rw [Counter.pcompare, if_neg (by omega),
          (compare_nat_gt_iff i j).mpr h,
          Eq.symm ((compare_nat_gt_iff (i + 1) (j + 1)).mpr (by omega))]

end ChainCtx

/-! ### Step equations of the drain loop -/

theorem drainLoop_nil (A : Applyable) (pk : Nat) (sv : Counter) (acc : A.Value)
    (left : List (Counter × OperationSigned A.D)) :
    drainLoop A pk [] sv acc left = .ok (sv, acc, left) := rfl

theorem drainLoop_lt (A : Applyable) (pk : Nat) (c : Counter) (o : OperationSigned A.D)
    (rest : List (Counter × OperationSigned A.D)) (sv : Counter) (acc : A.Value)
    (left : List (Counter × OperationSigned A.D)) (h : c.pcompare sv = some .lt) :
    drainLoop A pk ((c, o) :: rest) sv acc left = drainLoop A pk rest sv acc left := by
  simp [drainLoop, h]

theorem drainLoop_gt (A : Applyable) (pk : Nat) (c : Counter) (o : OperationSigned A.D)
    (rest : List (Counter × OperationSigned A.D)) (sv : Counter) (acc : A.Value)
    (left : List (Counter × OperationSigned A.D)) (h : c.pcompare sv = some .gt) :
    drainLoop A pk ((c, o) :: rest) sv acc left
      = drainLoop A pk rest sv acc (aupsert left c o) := by
  simp [drainLoop, h]

theorem drainLoop_eq_initial (A : Applyable) (pk : Nat) (c : Counter)
    (o : OperationSigned A.D) (rest : List (Counter × OperationSigned A.D))
    (sv : Counter) (acc : A.Value) (left : List (Counter × OperationSigned A.D))
    (h : c.pcompare sv = some .eq) (hcont : o.payload.contents = .initial) :
    drainLoop A pk ((c, o) :: rest) sv acc left
      = drainLoop A pk rest (sv.increment o.signature) acc left := by
  simp [drainLoop, h, hcont]

theorem drainLoop_eq_desc (A : Applyable) (pk : Nat) (c : Counter)
    (o : OperationSigned A.D) (rest : List (Counter × OperationSigned A.D))
    (sv : Counter) (acc : A.Value) (left : List (Counter × OperationSigned A.D))
    (d : A.D) (h : c.pcompare sv = some .eq) (hcont : o.payload.contents = .desc d) :
    drainLoop A pk ((c, o) :: rest) sv acc left
      = drainLoop A pk rest (sv.increment o.signature)
          (A.apply_without_idempotency_check acc d pk (sv.increment o.signature)) left := by
  simp [drainLoop, h, hcont]

theorem drainLoop_none (A : Applyable) (pk : Nat) (c : Counter)
    (o : OperationSigned A.D) (rest : List (Counter × OperationSigned A.D))
    (sv : Counter) (acc : A.Value) (left : List (Counter × OperationSigned A.D))
    (h : c.pcompare sv = none) :
    drainLoop A pk ((c, o) :: rest) sv acc left = .error .historyRewrite := by
  simp [drainLoop, h]

/-! ### The end point of a drain pass over a sorted index list -/

/-- Where the state-vector index ends up when the drain loop walks a sorted
index list `K` starting from expected index `p`: indices below `p` are
skipped, an index equal to `p` is consumed (and `p` advances), and the first
larger index stops the advance. -/
def dend : Nat → List Nat → Nat
  | p, [] => p
  | p, i :: rest => if i < p then dend p rest else if i = p then dend (p + 1) rest else p

theorem dend_ge (K : List Nat) : ∀ p, p ≤ dend p K := by
  induction K with
  | nil => intro p; simp [dend]
  | cons i rest ih =>
      intro p
      rw [dend]
      by_cases h1 : i < p
      · rw [if_pos h1]; exact ih p
      · rw [if_neg h1]
        by_cases h2 : i = p
        · rw [if_pos h2]; exact le_trans (Nat.le_succ p) (ih (p + 1))
        · rw [if_neg h2]

theorem dend_of_all_gt (K : List Nat) (p : Nat) (h : ∀ x ∈ K, p < x) :
    dend p K = p := by
  cases K with
  | nil => rfl
  | cons i rest =>
      have hi := h i (by simp)
      rw [dend, if_neg (by omega), if_neg (by omega)]

theorem dend_not_mem (K : List Nat) : ∀ p, K.Sorted (· < ·) → dend p K ∉ K := by
  induction K with
  | nil => intro p _; simp
  | cons i rest ih =>
      intro p hK
      rw [List.sorted_cons] at hK
      rw [dend]
      by_cases h1 : i < p
      · rw [if_pos h1]
        intro hmem
        rcases List.mem_cons.mp hmem with h | h
        · have := dend_ge rest p; omega
        · exact ih p hK.2 h
      · rw [if_neg h1]
        by_cases h2 : i = p
        · rw [if_pos h2]
          intro hmem
          rcases List.mem_cons.mp hmem with h | h
          · have := dend_ge rest (p + 1); omega
          · exact ih (p + 1) hK.2 h
        · rw [if_neg h2]
          intro hmem
          rcases List.mem_cons.mp hmem with h | h
          · omega
          · have := hK.1 p h; omega

theorem dend_mem (K : List Nat) : ∀ p m, K.Sorted (· < ·) → p ≤ m → m < dend p K →
    m ∈ K := by
  induction K with
  | nil => intro p m _ h1 h2; rw [dend] at h2; omega
  | cons i rest ih =>
      intro p m hK h1 h2
      rw [List.sorted_cons] at hK
      rw [dend] at h2
      by_cases hc1 : i < p
      · rw [if_pos hc1] at h2
        exact List.mem_cons.mpr (Or.inr (ih p m hK.2 h1 h2))
      · rw [if_neg hc1] at h2
        by_cases hc2 : i = p
        · rw [if_pos hc2] at h2
          by_cases hm : m = p
          · exact List.mem_cons.mpr (Or.inl (by omega))
          · exact List.mem_cons.mpr (Or.inr (ih (p + 1) m hK.2 (by omega) h2))
        · rw [if_neg hc2] at h2; omega

/-! ### Sorting chain-entry lists -/

theorem sIns_eq_cons (j : Nat) (l : List Nat) (h : ∀ x ∈ l, j < x) :
    sIns j l = j :: l := by
  cases l with
  | nil => rfl
  | cons x rest =>
      have := h x (by simp)
      rw [sIns, if_pos (by omega)]

namespace ChainCtx

variable {A : Applyable}

theorem orderedInsert_ent_front (C : ChainCtx A) (i : Nat) (M : List Nat)
    (h : ∀ x ∈ M, i < x) :
    List.orderedInsert (pendR A) (C.ent i) (M.map C.ent) = C.ent i :: M.map C.ent := by
  cases M with
  | nil => rfl
  | cons x rest =>
      have hx := h x (by simp)
      have hr : pendR A (C.ent i) (C.ent x) := by
        unfold pendR ent
        rw [ccmp_chain, (compare_nat_lt_iff i x).mpr hx]
        simp
      simp only [List.map_cons, List.orderedInsert, if_pos hr]

theorem sortPending_sorted_chain (C : ChainCtx A) (K : List Nat)
    (hK : K.Sorted (· < ·)) :
    sortPending A (K.map C.ent) = K.map C.ent := by
  rw [sortPending]
  refine List.Sorted.insertionSort_eq ?_
  rw [List.Sorted, List.pairwise_map]
  refine hK.imp ?_
  intro a b hab
  unfold pendR ent
  rw [ccmp_chain, (compare_nat_lt_iff a b).mpr hab]
  simp

theorem sortPending_append_chain (C : ChainCtx A) (K : List Nat) (j : Nat)
    (hK : K.Sorted (· < ·)) (hj : j ∉ K) :
    sortPending A (K.map C.ent ++ [C.ent j]) = (sIns j K).map C.ent := by
  induction K with
  | nil => rfl
  | cons i K' ih =>
      rw [List.sorted_cons] at hK
      have hji : j ≠ i := by intro h; exact hj (by simp [h])
      have ihK' := ih hK.2 (by intro h; exact hj (by simp [h]))
      rw [List.map_cons, List.cons_append]
      rw [sortPending, List.insertionSort]
      rw [show List.insertionSort (pendR A) (K'.map C.ent ++ [C.ent j])
            = sortPending A (K'.map C.ent ++ [C.ent j]) from rfl, ihK']
      by_cases h : j ≤ i
      · have hjlt : j < i := by omega
        have hK'j : sIns j K' = j :: K' := by
          refine sIns_eq_cons j K' ?_
          intro x hx
          exact lt_trans hjlt (hK.1 x hx)
        rw [hK'j, List.map_cons]
        have hnr : ¬ pendR A (C.ent i) (C.ent j) := by
          unfold pendR ent
          rw [ccmp_chain, (compare_nat_gt_iff i j).mpr hjlt]
          simp
        rw [List.orderedInsert, if_neg hnr]
        rw [orderedInsert_ent_front C i K' (fun x hx => hK.1 x hx)]
        rw [sIns, if_pos h, List.map_cons, List.map_cons]
      · have hij : i < j := by omega
        have hfront : ∀ x ∈ sIns j K', i < x := by
          intro x hx
          rcases (mem_sIns j x K').mp hx with h' | h'
          · omega
          · exact hK.1 x h'
        rw [orderedInsert_ent_front C i (sIns j K') hfront]
        rw [sIns, if_neg h, List.map_cons]

/-- A lookup for a chain counter in an entry list over indices not
containing it finds nothing. -/
theorem alookup_ent_none (C : ChainCtx A) (K : List Nat) (j : Nat) (hj : j ∉ K) :
    alookup (K.map C.ent) (C.chainC j) = none := by
  induction K with
  | nil => rfl
  | cons i K' ih =>
      have hne : C.chainC i ≠ C.chainC j := by
        intro h
        exact hj (by simp [chainC_inj C h])
      rw [List.map_cons]
      rw [show C.ent i = (C.chainC i, (C.chainOp i).data) from rfl]
      rw [alookup, if_neg hne]
      exact ih (by intro h; exact hj (by simp [h]))

/-- A lookup for a chain counter in an entry list over indices containing it
finds that operation's signed data. -/
theorem alookup_ent_some (C : ChainCtx A) (K : List Nat) (j : Nat)
    (hK : K.Sorted (· < ·)) (hj : j ∈ K) :
    alookup (K.map C.ent) (C.chainC j) = some ((C.chainOp j).data) := by
  induction K with
  | nil => simp at hj
  | cons i K' ih =>
      rw [List.sorted_cons] at hK
      rw [List.map_cons]
      rw [show C.ent i = (C.chainC i, (C.chainOp i).data) from rfl]
      by_cases h : i = j
      · subst h
        rw [alookup, if_pos rfl]
      · have hj' : j ∈ K' := by
          rcases List.mem_cons.mp hj with h' | h'
          · omega
          · exact h'
        have hne : C.chainC i ≠ C.chainC j := by
          intro hc; exact h (chainC_inj C hc)
        rw [alookup, if_neg hne]
        exact ih hK.2 hj'

/-- Characterization of one drain pass over a sorted list of chain entries:
starting from state-vector counter `chainC p` and value `valAt p`, the loop
ends at `chainC (dend p K)` and `valAt (dend p K)`, discards the indices
below the final point, and retains exactly the indices above it. -/
theorem drain_chain (C : ChainCtx A) :
    ∀ (K : List Nat) (p : Nat) (left : List (Counter × OperationSigned A.D)),
      K.Sorted (· < ·) →
      (∀ i ∈ K, alookup left (C.chainC i) = none) →
      drainLoop A C.k (K.map C.ent) (C.chainC p) (C.valAt p) left
        = .ok (C.chainC (dend p K), C.valAt (dend p K),
               left ++ (K.filter (fun i => decide (dend p K < i))).map C.ent) := by
  intro K
  induction K with
  | nil =>
      intro p left _ _
      simp [drainLoop_nil, dend]
  | cons i K' ih =>
      intro p left hK hleft
      rw [List.sorted_cons] at hK
      rw [List.map_cons]
      rw [show C.ent i = (C.chainC i, (C.chainOp i).data) from rfl]
      rcases Nat.lt_trichotomy i p with hip | hip | hip
      · -- duplicate of an already-applied operation: discarded
        have hcmp : (C.chainC i).pcompare (C.chainC p) = some .lt := by
          rw [pcompare_chain, (compare_nat_lt_iff i p).mpr hip]
        rw [drainLoop_lt A C.k _ _ _ _ _ _ hcmp]
        rw [ih p left hK.2 (fun x hx => hleft x (by simp [hx]))]
        have hd : dend p (i :: K') = dend p K' := by
          rw [dend, if_pos hip]
        rw [hd]
        have hge := dend_ge K' p
        rw [List.filter_cons_of_neg (by simp; omega)]
      · -- the expected operation: applied, state vector advances
        subst hip
        have hcmp : (C.chainC i).pcompare (C.chainC i) = some .eq := by
          rw [pcompare_chain, (compare_nat_eq_iff i i).mpr rfl]
        have hd : dend i (i :: K') = dend (i + 1) K' := by
          rw [dend, if_neg (by omega), if_pos rfl]
        have hge := dend_ge K' (i + 1)
        match hcontents : C.opData i with
        | .initial =>
            rw [drainLoop_eq_initial A C.k _ _ _ _ _ _ hcmp
              (by rw [chainOp_contents]; exact hcontents)]
            rw [show (C.chainC i).increment ((C.chainOp i).data.signature)
                  = C.chainC (i + 1) from (chainC_succ C i).symm]
            have hval : C.valAt i = C.valAt (i + 1) := by
              rw [valAt, hcontents]
            rw [hval]
            rw [ih (i + 1) left hK.2 (fun x hx => hleft x (by simp [hx]))]
            rw [hd, List.filter_cons_of_neg (by simp; omega)]
        | .desc d =>
            rw [drainLoop_eq_desc A C.k _ _ _ _ _ _ d hcmp
              (by rw [chainOp_contents]; exact hcontents)]
            rw [show (C.chainC i).increment ((C.chainOp i).data.signature)
                  = C.chainC (i + 1) from (chainC_succ C i).symm]
            have hval : A.apply_without_idempotency_check (C.valAt i) d C.k (C.chainC (i + 1))
                = C.valAt (i + 1) := by
              rw [valAt, hcontents]
            rw [hval]
            rw [ih (i + 1) left hK.2 (fun x hx => hleft x (by simp [hx]))]
            rw [hd, List.filter_cons_of_neg (by simp; omega)]
      · -- an operation ahead of the state vector: retained for later
        have hcmp : (C.chainC i).pcompare (C.chainC p) = some .gt := by
          rw [pcompare_chain, (compare_nat_gt_iff i p).mpr hip]
        rw [drainLoop_gt A C.k _ _ _ _ _ _ hcmp]
        rw [aupsert_of_lookup_none left (C.chainC i) ((C.chainOp i).data)
          (hleft i (by simp))]
        have hleft' : ∀ x ∈ K', alookup (left ++ [(C.chainC i, (C.chainOp i).data)])
            (C.chainC x) = none := by
          intro x hx
          rw [alookup_append_right left _ _ (hleft x (by simp [hx]))]
          have hne : C.chainC i ≠ C.chainC x := by
            intro hc
            have := chainC_inj C hc
            have := hK.1 x hx
            omega
          rw [alookup, if_neg hne]
          rfl
        rw [ih p _ hK.2 hleft']
        have hall : ∀ x ∈ K', p < x := fun x hx => lt_trans hip (hK.1 x hx)
        have hd : dend p (i :: K') = p := by
          rw [dend, if_neg (by omega), if_neg (by omega)]
        have hdK' : dend p K' = p := dend_of_all_gt K' p hall
        rw [hd, hdK']
        have hfK' : List.filter (fun x => decide (p < x)) K' = K' :=
          List.filter_eq_self.mpr (fun x hx => by simp [hall x hx])
        have hfK : List.filter (fun x => decide (p < x)) (i :: K') = i :: K' := by
          rw [List.filter_cons_of_pos (by simp [hip]), hfK']
        rw [hfK', hfK, List.map_cons, List.append_assoc, List.singleton_append]
        rfl

end ChainCtx

/-! ### Canonical replica state after seeing a set of chain operations -/

theorem exists_nat_not_mem (S : Finset Nat) : ∃ n, n ∉ S := by
  refine ⟨S.sup id + 1, fun h => ?_⟩
  have h2 : S.sup id + 1 ≤ S.sup id := by simpa using Finset.le_sup (f := id) h
  omega

/-- The applied-prefix length of a seen-set `S`: the least index not in `S`.
All indices below it have been folded into the value; `pfx S` itself is the
next expected index. -/
def pfx (S : Finset Nat) : Nat := Nat.find (exists_nat_not_mem S)

theorem pfx_not_mem (S : Finset Nat) : pfx S ∉ S := Nat.find_spec (exists_nat_not_mem S)

theorem pfx_mem (S : Finset Nat) {m : Nat} (h : m < pfx S) : m ∈ S := by
  have := Nat.find_min (exists_nat_not_mem S) h
  exact not_not.mp this

theorem pfx_eq (S : Finset Nat) (p : Nat) (h1 : ∀ m < p, m ∈ S) (h2 : p ∉ S) :
    pfx S = p := by
  refine le_antisymm (Nat.find_le h2) ?_
  by_contra h
  push_neg at h
  exact pfx_not_mem S (h1 (pfx S) h)

theorem pfx_le_of_subset {S T : Finset Nat} (h : S ⊆ T) : pfx S ≤ pfx T := by
  by_contra hc
  push_neg at hc
  exact pfx_not_mem T (h (pfx_mem S hc))

/-- The sorted list of seen-but-not-yet-applied indices of a seen-set `S`. -/
def pidx (S : Finset Nat) : List Nat := (S.filter (fun i => pfx S < i)).sort (· ≤ ·)

theorem pidx_sorted (S : Finset Nat) : (pidx S).Sorted (· < ·) :=
  Finset.sort_sorted_lt _

theorem mem_pidx (S : Finset Nat) (i : Nat) : i ∈ pidx S ↔ i ∈ S ∧ pfx S < i := by
  rw [pidx, Finset.mem_sort, Finset.mem_filter]

theorem pidx_empty : pidx (∅ : Finset Nat) = [] := by
  have : Finset.filter (fun i => pfx ∅ < i) ∅ = ∅ := Finset.filter_empty _
  rw [pidx, this, Finset.sort_empty]

theorem pfx_empty : pfx (∅ : Finset Nat) = 0 :=
  pfx_eq ∅ 0 (by omega) (by simp)

namespace ChainCtx

variable {A : Applyable}

/-- The canonical replica of a `ChainCtx` after having ingested exactly the
chain operations with indices in `S` (in any order, with any duplication):
the state vector expects index `pfx S`, the value is `valAt (pfx S)`, and
the pending buffer holds exactly the seen indices beyond the prefix. -/
def replicaAt (C : ChainCtx A) (S : Finset Nat) : CRDT A :=
  { info := ⟨C.cid, C.v0⟩
    state_vector := [(C.k, C.chainC (pfx S))]
    not_yet_applied_operations :=
      if pidx S = [] then [] else [(C.k, (pidx S).map C.ent)]
    recently_created_and_applied_operations := []
    value := C.valAt (pfx S) }

/-- The pending-plus-newcomer index list drained by `apply` when `chainOp j`
arrives at canonical state `S`. -/
def drainK (C : ChainCtx A) (S : Finset Nat) (j : Nat) : List Nat :=
  if j ∈ pidx S then pidx S else sIns j (pidx S)

theorem drainK_sorted (C : ChainCtx A) (S : Finset Nat) (j : Nat) :
    (C.drainK S j).Sorted (· < ·) := by
  rw [drainK]
  by_cases h : j ∈ pidx S
  · rw [if_pos h]; exact pidx_sorted S
  · rw [if_neg h]; exact sorted_sIns j (pidx S) (pidx_sorted S) h

theorem mem_drainK (C : ChainCtx A) (S : Finset Nat) (j : Nat) (n : Nat)
    (hn : pfx S ≤ n) : n ∈ C.drainK S j ↔ n ∈ insert j S := by
  rw [drainK, Finset.mem_insert]
  by_cases h : j ∈ pidx S
  · rw [if_pos h]
    rw [mem_pidx] at h ⊢
    constructor
    · intro hx; right; exact hx.1
    · rintro (rfl | hx)
      · exact h
      · refine ⟨hx, ?_⟩
        rcases Nat.lt_or_ge (pfx S) n with h' | h'
        · exact h'
        · have : n = pfx S := by omega
          subst this
          exact absurd hx (pfx_not_mem S)
  · rw [if_neg h, mem_sIns, mem_pidx]
    constructor
    · rintro (rfl | hx)
      · left; rfl
      · right; exact hx.1
    · rintro (rfl | hx)
      · left; rfl
      · by_cases hnj : n = j
        · left; exact hnj
        · right
          refine ⟨hx, ?_⟩
          rcases Nat.lt_or_ge (pfx S) n with h' | h'
          · exact h'
          · have : n = pfx S := by omega
            subst this
            exact absurd hx (pfx_not_mem S)

theorem dend_drainK (C : ChainCtx A) (S : Finset Nat) (j : Nat) :
    dend (pfx S) (C.drainK S j) = pfx (insert j S) := by
  have hK := C.drainK_sorted S j
  refine (pfx_eq (insert j S) (dend (pfx S) (C.drainK S j)) ?_ ?_).symm
  · intro m hm
    rcases Nat.lt_or_ge m (pfx S) with h | h
    · exact Finset.mem_insert_of_mem (pfx_mem S h)
    · exact (C.mem_drainK S j m h).mp (dend_mem _ _ _ hK h hm)
  · have hd := dend_ge (C.drainK S j) (pfx S)
    intro hc
    exact dend_not_mem _ _ hK ((C.mem_drainK S j _ hd).mpr hc)

theorem filter_drainK (C : ChainCtx A) (S : Finset Nat) (j : Nat) :
    (C.drainK S j).filter (fun i => decide (pfx (insert j S) < i))
      = pidx (insert j S) := by
  have hK := C.drainK_sorted S j
  have hle : pfx S ≤ pfx (insert j S) :=
    pfx_le_of_subset (Finset.subset_insert j S)
  refine sorted_eq_of_mem _ _ ?_ (pidx_sorted _) ?_
  · exact List.Pairwise.sublist (List.filter_sublist _) hK
  · intro a
    rw [List.mem_filter, mem_pidx]
    constructor
    · rintro ⟨ha, hlt⟩
      have hlt' : pfx (insert j S) < a := by simpa using hlt
      exact ⟨(C.mem_drainK S j a (by omega)).mp ha, hlt'⟩
    · rintro ⟨ha, hlt⟩
      exact ⟨(C.mem_drainK S j a (by omega)).mpr ha, by simpa using hlt⟩

theorem chainOp_verifies_k (C : ChainCtx A) (i : Nat) :
    (C.chainOp i).data.payload.verify_sig A.encD
      ((C.chainOp i).data.signature) C.k = true :=
  C.chainOp_verifies i

/-- Core canonization step: if a replica looks (to author `C.k`) like the
canonical state of seen-set `S`, then ingesting chain operation `j` through
`CRDT.apply` succeeds and moves it to the canonical state of `insert j S`. -/
theorem apply_chain_core (C : ChainCtx A) (S : Finset Nat) (j : Nat) (s : CRDT A)
    (hinfo : s.info.id = C.cid)
    (hsv : (alookup s.state_vector C.k).getD (Counter.initial C.cid) = C.chainC (pfx S))
    (hpend : (alookup s.not_yet_applied_operations C.k).getD [] = (pidx S).map C.ent)
    (hval : s.value = C.valAt (pfx S)) :
    s.apply (C.chainOp j) = .ok { s with
      state_vector := aupsert s.state_vector C.k (C.chainC (pfx (insert j S))),
      not_yet_applied_operations :=
        if pidx (insert j S) = [] then aerase s.not_yet_applied_operations C.k
        else aupsert s.not_yet_applied_operations C.k ((pidx (insert j S)).map C.ent),
      value := C.valAt (pfx (insert j S)) } := by
  simp only [CRDT.apply, chainOp_pub, chainOp_verifies_k, if_true]
  rw [hinfo, hsv, hpend, hval, chainOp_counter]
  have hdrain :
      sortPending A (aupsert ((pidx S).map C.ent) (C.chainC j) ((C.chainOp j).data))
        = (C.drainK S j).map C.ent := by
    by_cases hj : j ∈ pidx S
    · rw [aupsert_of_lookup_some _ _ _ (C.alookup_ent_some (pidx S) j (pidx_sorted S) hj)]
      rw [C.sortPending_sorted_chain _ (pidx_sorted S), drainK, if_pos hj]
    · rw [aupsert_of_lookup_none _ _ _ (C.alookup_ent_none (pidx S) j hj)]
      rw [show ((pidx S).map C.ent ++ [(C.chainC j, (C.chainOp j).data)])
            = (pidx S).map C.ent ++ [C.ent j] from rfl]
      rw [C.sortPending_append_chain (pidx S) j (pidx_sorted S) hj, drainK, if_neg hj]
  rw [hdrain]
  rw [C.drain_chain (C.drainK S j) (pfx S) [] (C.drainK_sorted S j)
    (fun x _ => rfl)]
  rw [C.dend_drainK S j, C.filter_drainK S j, List.nil_append]
  by_cases hpe : pidx (insert j S) = []
  · rw [hpe]
    simp
  · rw [if_neg hpe]
    have hne : ((pidx (insert j S)).map C.ent).isEmpty = false := by
      simp [List.isEmpty_iff, hpe]
    simp only [hne, Bool.false_eq_true, if_false]

/-- Ingesting chain op `j` at canonical state `S` yields canonical state
`insert j S`. -/
theorem apply_replicaAt (C : ChainCtx A) (S : Finset Nat) (j : Nat) :
    (C.replicaAt S).apply (C.chainOp j) = .ok (C.replicaAt (insert j S)) := by
  rw [C.apply_chain_core S j (C.replicaAt S) rfl
    (by rw [replicaAt, alookup, if_pos rfl]; rfl)
    (by
      rw [replicaAt]
      by_cases hpe : pidx S = []
      · rw [if_pos hpe, alookup_nil, hpe]; rfl
      · rw [if_neg hpe, alookup, if_pos rfl]; rfl)
    rfl]
  rw [replicaAt, replicaAt]
  by_cases hpe : pidx S = [] <;> by_cases hpe' : pidx (insert j S) = [] <;>
    simp [hpe, hpe', aupsert, aerase]

/-- Ingesting chain op `j` on the freshly created replica yields the
canonical state `{j}`. -/
theorem apply_fresh (C : ChainCtx A) (j : Nat) :
    (create_crdt A (create_crdt_info C.v0 C.cid)).apply (C.chainOp j)
      = .ok (C.replicaAt {j}) := by
  rw [C.apply_chain_core ∅ j _ rfl
    (by rw [create_crdt, alookup_nil, Option.getD, pfx_empty]; rfl)
    (by rw [create_crdt, alookup_nil, Option.getD, pidx_empty]; rfl)
    (by rw [create_crdt, pfx_empty]; rfl)]
  rw [create_crdt, replicaAt]
  have hins : insert j (∅ : Finset Nat) = {j} := rfl
  rw [hins] at *
  by_cases hpe' : pidx ({j} : Finset Nat) = [] <;>
    simp [hpe', aupsert, aerase, create_crdt_info]

/-- Folding any list of chain operations over a canonical state lands on the
canonical state of the union of the seen sets. -/
theorem apply_all_replicaAt (C : ChainCtx A) (L : List Nat) :
    ∀ S : Finset Nat, apply_all (C.replicaAt S) (L.map C.chainOp)
      = .ok (C.replicaAt (S ∪ L.toFinset)) := by
  induction L with
  | nil => intro S; simp [apply_all]
  | cons j L' ih =>
      intro S
      rw [List.map_cons, apply_all, C.apply_replicaAt S j]
      show apply_all (C.replicaAt (insert j S)) (L'.map C.chainOp)
        = .ok (C.replicaAt (S ∪ (j :: L').toFinset))
      rw [ih (insert j S)]
      have : insert j S ∪ L'.toFinset = S ∪ (j :: L').toFinset := by
        ext x
        simp only [Finset.mem_union, Finset.mem_insert, List.toFinset_cons,
          List.mem_toFinset]
        tauto
      rw [this]


/-- Folding a nonempty list of chain operations over the fresh replica lands
on the canonical state of the delivered index set: the replica state depends
only on *which* chain operations have been delivered, not on their order or
multiplicity. -/
theorem apply_all_fresh (C : ChainCtx A) (L : List Nat) (hL : L ≠ []) :
    apply_all (create_crdt A (create_crdt_info C.v0 C.cid)) (L.map C.chainOp)
      = .ok (C.replicaAt L.toFinset) := by
  cases L with
  | nil => exact absurd rfl hL
  | cons j L' =>
      rw [List.map_cons, apply_all, C.apply_fresh j]
      show apply_all (C.replicaAt {j}) (L'.map C.chainOp)
        = .ok (C.replicaAt ((j :: L').toFinset))
      rw [C.apply_all_replicaAt L' {j}]
      have : ({j} : Finset Nat) ∪ L'.toFinset = (j :: L').toFinset := by
        ext x
        simp [Finset.mem_union, List.mem_toFinset]
      rw [this]

end ChainCtx

/-! ### `pfx`/`pidx` on specific seen-sets -/

theorem pfx_range_toFinset (n : Nat) : pfx ((List.range n).toFinset) = n := by
  refine pfx_eq _ n (fun m hm => ?_) (by simp)
  simp [List.mem_toFinset, List.mem_range, hm]

theorem pidx_range_toFinset (n : Nat) : pidx ((List.range n).toFinset) = [] := by
  have h : ((List.range n).toFinset).filter
      (fun i => pfx ((List.range n).toFinset) < i) = ∅ := by
    ext x
    simp [pfx_range_toFinset]
    omega
  rw [pidx, h, Finset.sort_empty]

theorem pfx_union_range (kk : Nat) (T : Finset Nat) (hT : ∀ i ∈ T, kk < i) :
    pfx (Finset.range kk ∪ T) = kk := by
  refine pfx_eq _ kk (fun m hm => ?_) ?_
  · exact Finset.mem_union_left T (Finset.mem_range.mpr hm)
  · intro h
    rcases Finset.mem_union.mp h with h' | h'
    · exact absurd (Finset.mem_range.mp h') (by omega)
    · exact absurd (hT kk h') (by omega)

theorem pidx_union_range (kk : Nat) (T : Finset Nat) (hT : ∀ i ∈ T, kk < i) :
    pidx (Finset.range kk ∪ T) = T.sort (· ≤ ·) := by
  refine sorted_eq_of_mem _ _ (pidx_sorted _) (Finset.sort_sorted_lt T) ?_
  intro a
  rw [mem_pidx, Finset.mem_sort, Finset.mem_union, Finset.mem_range,
    pfx_union_range kk T hT]
  constructor
  · rintro ⟨h1 | h1, h2⟩
    · omega
    · exact h1
  · intro h
    exact ⟨Or.inr h, hT a h⟩

/-! ### Claim theorems -/

/-- **C1** (convergence, single author): for any author context, any number
`n` of descriptions producing the honest operation chain
`O = [chainOp 0, …, chainOp n]` against the fresh replica, and any
permutation of that list (given by a permutation `L` of the indices),
left-folding `CRDT.apply` over the permutation succeeds and yields a replica
whose value equals the one obtained from the original order.  (It moreover
yields a fully identical replica, since both sides reach the canonical
state of the full seen-set.) -/
theorem claim_c1_convergence {A : Applyable} (C : ChainCtx A) (n : Nat)
    (L : List Nat) (hperm : L.Perm (List.range (n + 1))) :
    (apply_all (create_crdt A (create_crdt_info C.v0 C.cid))
        (L.map C.chainOp)).map CRDT.value
      = (apply_all (create_crdt A (create_crdt_info C.v0 C.cid))
          ((List.range (n + 1)).map C.chainOp)).map CRDT.value := by
  have hne : L ≠ [] := by
    intro h
    subst h
    have := hperm.length_eq
    simp at this
  have htf : L.toFinset = (List.range (n + 1)).toFinset := by
    ext x
    simp [List.mem_toFinset, hperm.mem_iff]
  rw [C.apply_all_fresh L hne, C.apply_all_fresh (List.range (n + 1)) (by simp), htf]

/-- A concrete `Nat` chain context used by witnesses: author key 1, instance
id 0, initial value 0, all times 0, description `i + 1` for the `i`-th
authored description. -/
def natCtx : ChainCtx NatA := ⟨1, 0, ⟨0⟩, fun _ => 0, fun i => i + 1⟩

/-- Witness for C1: the three-operation chain `[o₀, o₁, o₂]` of the `Nat`
data type delivered in order `[o₂, o₀, o₁]` converges to the same value as
in-order delivery. -/
theorem claim_c1_convergence_witness :
    ([2, 0, 1].Perm (List.range (2 + 1))) ∧
    (apply_all (create_crdt NatA (create_crdt_info ⟨0⟩ 0))
        ([2, 0, 1].map (natCtx.chainOp))).map
        CRDT.value
      = (apply_all (create_crdt NatA (create_crdt_info ⟨0⟩ 0))
          ((List.range (2 + 1)).map
            (natCtx.chainOp))).map CRDT.value :=
  ⟨by decide, claim_c1_convergence natCtx 2 [2, 0, 1]
    (by decide)⟩

/-- **C2** (idempotence): delivering a list `L` of chain-operation indices
that covers every index of the honest chain `0..n` at least once (same
element set as `0..n`, duplicates allowed) yields the same value as exact
in-order delivery, and the pending buffer `not_yet_applied_operations` is
empty in both resulting replicas. -/
theorem claim_c2_idempotence {A : Applyable} (C : ChainCtx A) (n : Nat)
    (L : List Nat) (hsup : L.toFinset = (List.range (n + 1)).toFinset) :
    (apply_all (create_crdt A (create_crdt_info C.v0 C.cid))
        (L.map C.chainOp)).map CRDT.value
      = (apply_all (create_crdt A (create_crdt_info C.v0 C.cid))
          ((List.range (n + 1)).map C.chainOp)).map CRDT.value
    ∧ (apply_all (create_crdt A (create_crdt_info C.v0 C.cid))
        (L.map C.chainOp)).map CRDT.not_yet_applied_operations = .ok []
    ∧ (apply_all (create_crdt A (create_crdt_info C.v0 C.cid))
        ((List.range (n + 1)).map C.chainOp)).map CRDT.not_yet_applied_operations
      = .ok [] := by
  have hne : L ≠ [] := by
    intro h
    subst h
    have h0 : (0 : Nat) ∈ (List.range (n + 1)).toFinset := by simp
    rw [← hsup] at h0
    simp at h0
  rw [C.apply_all_fresh L hne, C.apply_all_fresh (List.range (n + 1)) (by simp), hsup]
  refine ⟨rfl, ?_, ?_⟩ <;>
    simp [ChainCtx.replicaAt, pidx_range_toFinset, Except.map]

/-- Witness for C2: delivering `[o₀, o₁, o₂]` as `[o₂, o₁, o₀, o₁, o₂]`
(duplicates added, every op present) gives the same value, and pending is
empty in both replicas. -/
theorem claim_c2_idempotence_witness :
    ([2, 1, 0, 1, 2].toFinset = (List.range (2 + 1)).toFinset) ∧
    ((apply_all (create_crdt NatA (create_crdt_info ⟨0⟩ 0))
        ([2, 1, 0, 1, 2].map (natCtx.chainOp))).map
        CRDT.value
      = (apply_all (create_crdt NatA (create_crdt_info ⟨0⟩ 0))
          ((List.range (2 + 1)).map
            (natCtx.chainOp))).map CRDT.value
    ∧ (apply_all (create_crdt NatA (create_crdt_info ⟨0⟩ 0))
        ([2, 1, 0, 1, 2].map (natCtx.chainOp))).map
        CRDT.not_yet_applied_operations = .ok []
    ∧ (apply_all (create_crdt NatA (create_crdt_info ⟨0⟩ 0))
        ((List.range (2 + 1)).map
          (natCtx.chainOp))).map
        CRDT.not_yet_applied_operations = .ok []) :=
  ⟨by decide, claim_c2_idempotence natCtx 2 [2, 1, 0, 1, 2] (by decide)⟩

/-- **C7** (causal gate per author): if the operations delivered to a fresh
replica are exactly the full prefix `0..kk-1` of the author's chain plus an
arbitrary nonempty set `T` of indices beyond the missing index `kk`, then
(i) delivery succeeds and reaches the canonical state of that seen-set,
(ii) the value reflects only the prefix (`valAt kk`), none of the `T`
operations, (iii) all the `T` operations reside in the author's pending
buffer, and (iv) delivering the missing operation `kk` afterwards applies it
together with every contiguous successor present in `T` in that single
`apply` call: the new applied prefix `m` satisfies `kk < m`, every index
strictly between `kk` and `m` is in `T`, `m ∉ T`, the value becomes
`valAt m`, and only the indices of `T` beyond `m` remain pending. -/
theorem claim_c7_causal_gate {A : Applyable} (C : ChainCtx A) (kk : Nat)
    (T : Finset Nat) (L : List Nat) (hT : ∀ i ∈ T, kk < i) (hTne : T.Nonempty)
    (hL : L.toFinset = Finset.range kk ∪ T) :
    apply_all (create_crdt A (create_crdt_info C.v0 C.cid)) (L.map C.chainOp)
        = .ok (C.replicaAt (Finset.range kk ∪ T))
    ∧ (C.replicaAt (Finset.range kk ∪ T)).value = C.valAt kk
    ∧ alookup (C.replicaAt (Finset.range kk ∪ T)).not_yet_applied_operations C.k
        = some ((T.sort (· ≤ ·)).map C.ent)
    ∧ (C.replicaAt (Finset.range kk ∪ T)).apply (C.chainOp kk)
        = .ok (C.replicaAt (insert kk (Finset.range kk ∪ T)))
    ∧ (kk < pfx (insert kk (Finset.range kk ∪ T))
        ∧ (∀ i, kk < i → i < pfx (insert kk (Finset.range kk ∪ T)) → i ∈ T)
        ∧ pfx (insert kk (Finset.range kk ∪ T)) ∉ T)
    ∧ (C.replicaAt (insert kk (Finset.range kk ∪ T))).value
        = C.valAt (pfx (insert kk (Finset.range kk ∪ T))) := by
  have hpfx : pfx (Finset.range kk ∪ T) = kk := pfx_union_range kk T hT
  have hpidx : pidx (Finset.range kk ∪ T) = T.sort (· ≤ ·) := pidx_union_range kk T hT
  have hsort_ne : T.sort (· ≤ ·) ≠ [] := by
    intro h
    rcases hTne with ⟨x, hx⟩
    have : x ∈ T.sort (· ≤ ·) := (Finset.mem_sort _).mpr hx
    rw [h] at this
    simp at this
  have hne : L ≠ [] := by
    intro h
    subst h
    rcases hTne with ⟨x, hx⟩
    have : x ∈ ([] : List Nat).toFinset := by
      rw [hL]
      exact Finset.mem_union_right _ hx
    simp at this
  have hS' : ∀ m, m < pfx (insert kk (Finset.range kk ∪ T)) → m ∈ insert kk (Finset.range kk ∪ T) :=
    fun m hm => pfx_mem _ hm
  have hgt : kk < pfx (insert kk (Finset.range kk ∪ T)) := by
    by_contra hc
    push_neg at hc
    have hmem : pfx (insert kk (Finset.range kk ∪ T)) ∈ insert kk (Finset.range kk ∪ T) := by
      rcases Nat.lt_or_ge (pfx (insert kk (Finset.range kk ∪ T))) kk with h | h
      · exact Finset.mem_insert_of_mem (Finset.mem_union_left _ (Finset.mem_range.mpr h))
      · have : pfx (insert kk (Finset.range kk ∪ T)) = kk := by omega
        rw [this]
        exact Finset.mem_insert_self kk _
    exact pfx_not_mem _ hmem
  refine ⟨C.apply_all_fresh L hne |>.trans (by rw [hL]), ?_, ?_, C.apply_replicaAt _ kk,
    ⟨hgt, ?_, ?_⟩, rfl⟩
  · rw [ChainCtx.replicaAt]
    show C.valAt (pfx (Finset.range kk ∪ T)) = C.valAt kk
    rw [hpfx]
  · rw [ChainCtx.replicaAt]
    show alookup (if pidx (Finset.range kk ∪ T) = [] then []
      else [(C.k, (pidx (Finset.range kk ∪ T)).map C.ent)]) C.k = _
    rw [hpidx, if_neg hsort_ne, alookup, if_pos rfl]
  · intro i hi1 hi2
    have := pfx_mem _ hi2
    rcases Finset.mem_insert.mp this with h | h
    · omega
    · rcases Finset.mem_union.mp h with h' | h'
      · exact absurd (Finset.mem_range.mp h') (by omega)
      · exact h'
  · intro hc
    exact pfx_not_mem _
      (Finset.mem_insert_of_mem (Finset.mem_union_right _ hc))

/-- Witness for C7: with the missing index `kk = 1` and `T = {2}` delivered
as `[o₀, o₂]`, the causal-gate theorem applies. -/
theorem claim_c7_causal_gate_witness :
    (∀ i ∈ ({2} : Finset Nat), 1 < i) ∧ ({2} : Finset Nat).Nonempty ∧
    ([0, 2].toFinset = Finset.range 1 ∪ ({2} : Finset Nat)) ∧
    (apply_all (create_crdt NatA (create_crdt_info ⟨0⟩ 0)) ([0, 2].map natCtx.chainOp)
        = .ok (natCtx.replicaAt (Finset.range 1 ∪ {2}))
    ∧ (natCtx.replicaAt (Finset.range 1 ∪ {2})).value = natCtx.valAt 1
    ∧ alookup (natCtx.replicaAt (Finset.range 1 ∪ {2})).not_yet_applied_operations 1
        = some ((({2} : Finset Nat).sort (· ≤ ·)).map natCtx.ent)
    ∧ (natCtx.replicaAt (Finset.range 1 ∪ {2})).apply (natCtx.chainOp 1)
        = .ok (natCtx.replicaAt (insert 1 (Finset.range 1 ∪ {2})))
    ∧ (1 < pfx (insert 1 (Finset.range 1 ∪ {2}))
        ∧ (∀ i, 1 < i → i < pfx (insert 1 (Finset.range 1 ∪ {2})) → i ∈ ({2} : Finset Nat))
        ∧ pfx (insert 1 (Finset.range 1 ∪ {2})) ∉ ({2} : Finset Nat))
    ∧ (natCtx.replicaAt (insert 1 (Finset.range 1 ∪ {2}))).value
        = natCtx.valAt (pfx (insert 1 (Finset.range 1 ∪ {2})))) :=
  ⟨by decide, by decide, by decide,
    by
      have h := claim_c7_causal_gate natCtx 1 {2} [0, 2] (by decide) (by decide) (by decide)
      exact h⟩

/-- Chain operation `o₁` of the `Nat` context with its signature corrupted
(one flipped into the signed message field). -/
def tamperedOp : Operation NatA.D :=
  { natCtx.chainOp 1 with
    data := { (natCtx.chainOp 1).data with
      signature := ⟨(natCtx.chainOp 1).data.signature.msg + 1,
                    (natCtx.chainOp 1).data.signature.key⟩ } }

/-- **C3 counterexample**: delivering an operation whose signature does not
verify makes `CRDT::apply` take the `panic!` at replicant.rs lines 294-299
(embedded as `Except.error EnginePanic.badSignature`): the failure is a
crash of the call, not a rejection surfaced as a normal return value or a
typed error as the claim states. -/
theorem claim_c3_counterexample :
    (create_crdt NatA (create_crdt_info ⟨0⟩ 0)).apply tamperedOp
      = .error EnginePanic.badSignature := by decide

/-- **C3 amended**: an operation whose signature does not verify causes
`CRDT::apply` to panic (embedded as `Except.error EnginePanic.badSignature`)
before any replica state is produced; no replica with modified `value`,
`state_vector` or pending buffer ever results from such a call (the call
produces no replica at all), but the failure is a `panic!`, not a return
value or typed error. -/
theorem claim_c3_amended (A : Applyable) (s : CRDT A) (op : Operation A.D)
    (h : op.data.payload.verify_sig A.encD op.data.signature op.user_pub_key = false) :
    s.apply op = .error EnginePanic.badSignature := by
  simp [CRDT.apply, h]

/-- Witness for the amended C3 at the concrete tampered operation. -/
theorem claim_c3_amended_witness :
    (tamperedOp.data.payload.verify_sig NatA.encD tamperedOp.data.signature
        tamperedOp.user_pub_key = false) ∧
    (create_crdt NatA (create_crdt_info ⟨0⟩ 0)).apply tamperedOp
      = .error EnginePanic.badSignature :=
  ⟨by decide, claim_c3_amended NatA (create_crdt NatA (create_crdt_info ⟨0⟩ 0))
    tamperedOp (by decide)⟩

/-- The `Nat` chain context of the C4 scenario: author key 1, id 0, times 0,
single description 7. -/
def natCtx7 : ChainCtx NatA := ⟨1, 0, ⟨0⟩, fun _ => 0, fun _ => 7⟩

/-- **C4 counterexample**: on a fresh `Nat` replica with initial value 0,
`apply_desc account 7` does produce value 7, but the subsequent `flush`
returns a map with **two** operations, not exactly one: `apply_desc` on an
author's first local operation creates and records both the engine-generated
`Initial` operation and the description operation. -/
theorem claim_c4_counterexample :
    ((create_crdt NatA (create_crdt_info ⟨0⟩ 0)).apply_desc
        (create_account 1 1) 7 0 0).map
      (fun s => (s.value.value, s.flush.1.length)) = .ok (7, 2) := by decide

/-- **C4 amended**: starting from an empty replica with initial value 0 and
a fresh account, `apply_desc account 7` yields value 7, and `flush()`
returns exactly two operations: the engine-generated `Initial` operation
(at counter `Initial id`) and the description operation at counter
`Operation 0`. -/
theorem claim_c4_amended :
    ((create_crdt NatA (create_crdt_info ⟨0⟩ 0)).apply_desc
        (create_account 1 1) 7 0 0).map
      (fun s => (s.value, s.flush.1))
      = .ok (⟨7⟩, [(natCtx7.chainC 0, natCtx7.chainOp 0),
                   (natCtx7.chainC 1, natCtx7.chainOp 1)]) := by decide

/-- The probe chain context: author key 1, id 0, times 0, description
`i + 5` for the `i`-th description; the probe value records every counter
passed to the fold function. -/
def probeCtx : ChainCtx ProbeA := ⟨1, 0, [], fun _ => 0, fun i => i + 5⟩

/-- **C6 counterexample**: delivering `[o₀, o₁]` of the probe chain, the
fold function is invoked (for `o₁`, the only `Desc` operation) with counter
`chainC 2` — the state-vector counter *after* the increment — whereas `o₁`'s
own counter is `chainC 1 ≠ chainC 2`.  The code increments the state-vector
counter first and then passes it to `apply_without_idempotency_check`
(replicant.rs lines 261-273), so fold receives the successor counter, not
the operation's own counter as the claim states. -/
theorem claim_c6_counterexample :
    ((apply_all (create_crdt ProbeA (create_crdt_info [] 0))
        [probeCtx.chainOp 0, probeCtx.chainOp 1]).map CRDT.value
      = .ok [probeCtx.chainC 2])
    ∧ (probeCtx.chainOp 1).data.payload.counter = probeCtx.chainC 1
    ∧ probeCtx.chainC 2 ≠ probeCtx.chainC 1 := by decide

/-- **C6 amended**: in the drain loop, when an operation's counter matches
the state-vector counter, the state vector is incremented **first** and the
fold function receives that already-incremented (successor) counter.
Observed through the probe data type over any author context: after an
in-order delivery of chain operations `0..n`, the recorded fold arguments
are exactly `chainC 2, …, chainC (n+1)` — the successor of each applied
operation's own counter (operation `i+1` has counter `chainC (i+1)` and its
fold receives `chainC (i+2)`). -/
theorem claim_c6_amended (C : ChainCtx ProbeA) (n : Nat) :
    (apply_all (create_crdt ProbeA (create_crdt_info C.v0 C.cid))
        ((List.range (n + 1)).map C.chainOp)).map CRDT.value
      = .ok (C.v0 ++ (List.range n).map (fun i => C.chainC (i + 2))) := by
  rw [C.apply_all_fresh _ (by simp)]
  have hval : ∀ p, C.valAt (p + 1) = C.v0 ++ (List.range p).map (fun i => C.chainC (i + 2)) := by
    intro p
    induction p with
    | zero =>
        have h0 : C.valAt (0 + 1) = C.v0 := rfl
        rw [h0]
        simp
    | succ q ih =>
        have hstep : C.valAt (q + 2) = C.valAt (q + 1) ++ [C.chainC (q + 2)] := rfl
        rw [hstep, ih, List.range_succ, List.map_append, List.map_cons, List.map_nil,
          List.append_assoc]
  have hv : (C.replicaAt (List.range (n + 1)).toFinset).value = C.valAt (n + 1) := by
    show C.valAt (pfx (List.range (n + 1)).toFinset) = C.valAt (n + 1)
    rw [pfx_range_toFinset]
  simp only [Except.map]
  rw [hv, hval n]

/-- The counter the author's second operation carries: the increment of
`Initial cid` by the initial operation's signature. -/
def equivocalC (A : Applyable) (k cid t0 : Nat) : Counter :=
  (create_operation_core A (create_account k k) .initial t0 (Counter.initial cid)).2

/-- An equivocating author's operation: a properly signed operation carrying
description `d` at the same counter `equivocalC` regardless of `d`. -/
def equivocalOp (A : Applyable) (k cid t0 t : Nat) (d : A.D) : Operation A.D :=
  (create_operation_core A (create_account k k) (.desc d) t
    (equivocalC A k cid t0)).1

/-- **C5 counterexample**: two distinct, correctly signed operations at the
same (author, counter) key — descriptions 3 and 4 — are delivered while the
slot is still pending (the predecessor is missing).  The `HashMap::insert`
at replicant.rs lines 226-228 *overwrites* the first-seen entry: afterwards
the pending buffer holds the **second** payload (description 4), the first
is gone, and `apply` reports no error.  The claim (first-seen wins, newcomer
discarded, condition surfaced as an error) fails on all three points. -/
theorem claim_c5_counterexample :
    (apply_all (create_crdt NatA (create_crdt_info ⟨0⟩ 0))
        [equivocalOp NatA 1 0 0 0 3, equivocalOp NatA 1 0 0 0 4]).map
      (fun s => alookup s.not_yet_applied_operations 1)
      = .ok (some [(equivocalC NatA 1 0 0, (equivocalOp NatA 1 0 0 0 4).data)])
    ∧ (equivocalOp NatA 1 0 0 0 3).data ≠ (equivocalOp NatA 1 0 0 0 4).data := by
  decide

/-- **C5 amended**: when `apply` ingests a verifying operation at an
(author, counter) key at which the pending buffer already holds a distinct
signed payload, the buffer insert *replaces* the existing entry: the
last-seen payload wins, the first-seen one is discarded, and no error is
surfaced (`apply` returns successfully).  Shown for any data type, author
key, instance id, times and distinct descriptions, delivered on a fresh
replica while the slot is gated behind the missing initial operation. -/
theorem claim_c5_amended (A : Applyable) (v0 : A.Value) (k cid t0 t1 t2 : Nat)
    (d1 d2 : A.D) (hd : A.encD d1 ≠ A.encD d2) :
    (apply_all (create_crdt A (create_crdt_info v0 cid))
        [equivocalOp A k cid t0 t1 d1, equivocalOp A k cid t0 t2 d2]).map
      (fun s => alookup s.not_yet_applied_operations k)
      = .ok (some [(equivocalC A k cid t0, (equivocalOp A k cid t0 t2 d2).data)])
    ∧ (equivocalOp A k cid t0 t1 d1).data ≠ (equivocalOp A k cid t0 t2 d2).data := by
  constructor
  · simp only [apply_all, CRDT.apply, equivocalOp, equivocalC, create_crdt,
      create_crdt_info, create_operation_core, OperationCounted.verify_sig,
      OperationCounted.mkSig, verify_detached, sign_detached, create_account,
      Counter.increment, alookup, aupsert, sortPending, List.insertionSort,
      List.orderedInsert, drainLoop, Counter.pcompare, List.isEmpty, aerase,
      Option.getD, beq_self_eq_true, Bool.and_self, if_true, Except.map]
  · intro h
    have hc := congrArg (fun x => x.payload.contents) h
    simp only [equivocalOp, create_operation_core, OperationData.desc.injEq] at hc
    exact hd (congrArg A.encD hc)

/-- Witness for the amended C5 at the concrete inputs of the counterexample
scenario (descriptions 3 and 4 of the `Nat` type). -/
theorem claim_c5_amended_witness :
    (NatA.encD 3 ≠ NatA.encD 4) ∧
    ((apply_all (create_crdt NatA (create_crdt_info ⟨5⟩ 9))
        [equivocalOp NatA 2 9 0 0 3, equivocalOp NatA 2 9 0 1 4]).map
      (fun s => alookup s.not_yet_applied_operations 2)
      = .ok (some [(equivocalC NatA 2 9 0, (equivocalOp NatA 2 9 0 1 4).data)])
    ∧ (equivocalOp NatA 2 9 0 0 3).data ≠ (equivocalOp NatA 2 9 0 1 4).data) :=
  ⟨by decide, claim_c5_amended NatA ⟨5⟩ 2 9 0 0 1 3 4 (by decide)⟩

theorem apply_outbox_eq (A : Applyable) (s : CRDT A) (op : Operation A.D)
    (s' : CRDT A) (h : s.apply op = .ok s') :
    s'.recently_created_and_applied_operations
      = s.recently_created_and_applied_operations := by
  simp only [CRDT.apply] at h
  split at h
  · split at h
    · exact absurd h (by simp)
    · rw [Except.ok.injEq] at h
      subst h
      rfl
  · exact absurd h (by simp)

theorem create_op_from_desc_pub (A : Applyable) (acct : Account) (d : A.D)
    (t : Nat) (c : Counter) (op : Operation A.D) (c' : Counter)
    (h : create_operation_from_description A acct d t c = .ok (op, c')) :
    op.user_pub_key = acct.user_pub_key := by
  simp only [create_operation_from_description, create_operation] at h
  split at h
  · rw [Except.ok.injEq] at h
    have h1 : (create_operation_core A acct (.desc d) t c).1 = op :=
      congrArg Prod.fst h
    rw [← h1]
    rfl
  · exact absurd h (by simp)

theorem apply_desc_outbox (A : Applyable) (s : CRDT A) (acct : Account) (d : A.D)
    (t1 t2 : Nat) (s' : CRDT A) (h : s.apply_desc acct d t1 t2 = .ok s') :
    ∀ e ∈ s'.recently_created_and_applied_operations,
      e ∈ s.recently_created_and_applied_operations
        ∨ e.2.user_pub_key = acct.user_pub_key := by
  simp only [CRDT.apply_desc] at h
  split at h
  · exact absurd h (by simp)
  · rename_i step s1 c hstep
    split at h
    · exact absurd h (by simp)
    · rename_i pr op1 c' hcreate
      split at h
      · exact absurd h (by simp)
      · rename_i s2 happly2
        rw [Except.ok.injEq] at h
        subst h
        intro e he
        have hs2 := apply_outbox_eq A s1 op1 s2 happly2
        have hpub1 := create_op_from_desc_pub A acct d t2 c op1 c' hcreate
        rcases mem_aupsert _ _ _ e he with he2 | he2
        · rw [hs2] at he2
          split at hstep
          · rename_i hini
            split at hstep
            · exact absurd hstep (by simp)
            · rename_i s0 happly0
              rw [Except.ok.injEq] at hstep
              have h1 := congrArg
                (fun x => x.1.recently_created_and_applied_operations) hstep
              simp only [] at h1
              rw [← h1] at he2
              have hs0 := apply_outbox_eq A _ _ s0 happly0
              rcases mem_aupsert _ _ _ e he2 with he3 | he3
              · rw [hs0] at he3
                exact Or.inl he3
              · refine Or.inr ?_
                rw [he3]
                rfl
          · rw [Except.ok.injEq] at hstep
            have h1 := congrArg
              (fun x => x.1.recently_created_and_applied_operations) hstep
            simp only [] at h1
            rw [← h1] at he2
            exact Or.inl he2
        · refine Or.inr ?_
          rw [he2, hpub1]

/-- **C8** (outbox flush, frame): (i) `flush` returns exactly the outbox
(`recently_created_and_applied_operations`), and the replica it leaves
behind is the same replica with an empty outbox — in particular `value`,
`state_vector`, pending buffer and info are untouched — so an immediately
following `flush` returns the empty map; (ii) ingesting a remote operation
through `apply` never changes the outbox, and (iii) a successful
`apply_desc` only adds operations authored by the given account to the
outbox — together: the outbox holds exactly the locally-authored operations
accumulated since the previous flush (or creation). -/
theorem claim_c8_flush (A : Applyable) :
    (∀ s : CRDT A,
      s.flush.1 = s.recently_created_and_applied_operations ∧
      s.flush.2 = { s with recently_created_and_applied_operations := [] } ∧
      s.flush.2.flush.1 = []) ∧
    (∀ (s : CRDT A) (op : Operation A.D) (s' : CRDT A), s.apply op = .ok s' →
      s'.recently_created_and_applied_operations
        = s.recently_created_and_applied_operations) ∧
    (∀ (s : CRDT A) (acct : Account) (d : A.D) (t1 t2 : Nat) (s' : CRDT A),
      s.apply_desc acct d t1 t2 = .ok s' →
      ∀ e ∈ s'.recently_created_and_applied_operations,
        e ∈ s.recently_created_and_applied_operations
          ∨ e.2.user_pub_key = acct.user_pub_key) :=
  ⟨fun s => ⟨rfl, rfl, rfl⟩, apply_outbox_eq A, apply_desc_outbox A⟩

/-- The replica obtained by applying the chain's initial operation to a
fresh `Nat` replica (used by witnesses). -/
def c8afterApply : CRDT NatA :=
  ⟨⟨0, ⟨0⟩⟩, [(1, Counter.operation 0 ⟨0, 1⟩)], [], [], ⟨0⟩⟩

/-- The replica obtained by `apply_desc account 7` on a fresh `Nat` replica
(used by witnesses): two operations in the outbox, value 7. -/
def c8afterDesc : CRDT NatA :=
  ⟨⟨0, ⟨0⟩⟩, [(1, natCtx7.chainC 2)], [],
   [(natCtx7.chainC 0, natCtx7.chainOp 0), (natCtx7.chainC 1, natCtx7.chainOp 1)], ⟨7⟩⟩

/-- Witness for C8 at concrete inputs: flushing the replica produced by the
C4 scenario, an `apply` of a remote chain operation, and an `apply_desc`. -/
theorem claim_c8_flush_witness :
    (c8afterDesc.flush.1 = c8afterDesc.recently_created_and_applied_operations ∧
      c8afterDesc.flush.2
        = { c8afterDesc with recently_created_and_applied_operations := [] } ∧
      c8afterDesc.flush.2.flush.1 = []) ∧
    (c8afterApply.recently_created_and_applied_operations
      = (create_crdt NatA (create_crdt_info ⟨0⟩ 0)).recently_created_and_applied_operations) ∧
    ((natCtx7.chainC 1, natCtx7.chainOp 1)
        ∈ (create_crdt NatA (create_crdt_info ⟨0⟩ 0)).recently_created_and_applied_operations
      ∨ ((natCtx7.chainC 1, natCtx7.chainOp 1)).2.user_pub_key
        = (create_account 1 1).user_pub_key) :=
  ⟨(claim_c8_flush NatA).1 c8afterDesc,
   (claim_c8_flush NatA).2.1 (create_crdt NatA (create_crdt_info ⟨0⟩ 0))
     (natCtx.chainOp 0) c8afterApply (by decide),
   (claim_c8_flush NatA).2.2 (create_crdt NatA (create_crdt_info ⟨0⟩ 0))
     (create_account 1 1) 7 0 0 c8afterDesc (by decide)
     (natCtx7.chainC 1, natCtx7.chainOp 1) (by decide)⟩

/-- **C9** (`Nat` fold): the `Applyable` impl for `Nat` folds by saturating
`u32` addition — the result is `min (v + d) (2^32 − 1)` — it is total, never
exceeds `u32::MAX`, and ignores the author and counter arguments. -/
theorem claim_c9_nat_fold (v : NatCrdt) (d a : Nat) (c : Counter) :
    NatA.apply_without_idempotency_check v d a c
        = ⟨min (v.value + d) (2 ^ 32 - 1)⟩
    ∧ (∀ (a' : Nat) (c' : Counter),
        NatA.apply_without_idempotency_check v d a c
          = NatA.apply_without_idempotency_check v d a' c')
    ∧ (NatA.apply_without_idempotency_check v d a c).value ≤ 2 ^ 32 - 1 := by
  have hmax : u32max = 2 ^ 32 - 1 := by norm_num [u32max]
  refine ⟨?_, fun a' c' => rfl, ?_⟩
  · show NatCrdt.mk (min (v.value + d) u32max) = NatCrdt.mk (min (v.value + d) (2 ^ 32 - 1))
    rw [hmax]
  · show min (v.value + d) u32max ≤ 2 ^ 32 - 1
    rw [hmax]
    exact min_le_right _ _

/-- **C10** (Initial operations never fold): (i) in the drain loop, applying
an operation whose contents are the engine-generated `Initial` variant at
the expected counter advances the state-vector counter but does not invoke
the data type's fold function — the value accumulator is passed on
unchanged; (ii) consequently, `apply`-ing an `Initial` operation to a
replica with no pending operations for its author leaves the replica's
value unchanged whenever it succeeds. -/
theorem claim_c10_initial_noop (A : Applyable) :
    (∀ (pk : Nat) (c : Counter) (o : OperationSigned A.D)
        (rest left : List (Counter × OperationSigned A.D)) (sv : Counter)
        (acc : A.Value),
        o.payload.contents = .initial → c.pcompare sv = some .eq →
        drainLoop A pk ((c, o) :: rest) sv acc left
          = drainLoop A pk rest (sv.increment o.signature) acc left)
    ∧ (∀ (s : CRDT A) (op : Operation A.D) (s' : CRDT A),
        op.data.payload.contents = .initial →
        alookup s.not_yet_applied_operations op.user_pub_key = none →
        s.apply op = .ok s' → s'.value = s.value) := by
  constructor
  · intro pk c o rest left sv acc hcont hcmp
    exact drainLoop_eq_initial A pk c o rest sv acc left hcmp hcont
  · intro s op s' hcont hpend h
    simp only [CRDT.apply] at h
    split at h
    · rw [hpend] at h
      simp only [Option.getD_none, aupsert] at h
      rw [show sortPending A [(op.data.payload.counter, op.data)]
            = [(op.data.payload.counter, op.data)] from rfl] at h
      cases hc : (op.data.payload.counter).pcompare
          ((alookup s.state_vector op.user_pub_key).getD
            (Counter.initial s.info.id)) with
      | none =>
          rw [drainLoop_none A op.user_pub_key _ _ _ _ _ _ hc, ] at h
          exact absurd h (by simp)
      | some ord =>
          cases ord with
          | lt =>
              rw [drainLoop_lt A op.user_pub_key _ _ _ _ _ _ hc, drainLoop_nil] at h
              cases h
              rfl
          | eq =>
              rw [drainLoop_eq_initial A op.user_pub_key _ _ _ _ _ _ hc hcont,
                drainLoop_nil] at h
              cases h
              rfl
          | gt =>
              rw [drainLoop_gt A op.user_pub_key _ _ _ _ _ _ hc, drainLoop_nil] at h
              cases h
              rfl
    · exact absurd h (by simp)

/-- Witness for C10 at concrete inputs: the drain step on the `Nat` chain's
initial operation, and a full `apply` of that operation on the fresh
replica. -/
theorem claim_c10_initial_noop_witness :
    (drainLoop NatA 1 [(Counter.initial 0, (natCtx.chainOp 0).data)]
        (Counter.initial 0) ⟨0⟩ []
      = drainLoop NatA 1 []
          ((Counter.initial 0).increment ((natCtx.chainOp 0).data.signature)) ⟨0⟩ [])
    ∧ c8afterApply.value = (create_crdt NatA (create_crdt_info ⟨0⟩ 0)).value :=
  ⟨(claim_c10_initial_noop NatA).1 1 (Counter.initial 0) ((natCtx.chainOp 0).data)
      [] [] (Counter.initial 0) ⟨0⟩ (by decide) (by decide),
   (claim_c10_initial_noop NatA).2 (create_crdt NatA (create_crdt_info ⟨0⟩ 0))
      (natCtx.chainOp 0) c8afterApply (by decide) (by decide) (by decide)⟩
